import Mathlib

/-!
Shallow embedding of the light-curve feature / dm-dt numerical engine
(crates light-curve-dmdt and light-curve-feature) and proofs about it.

Conventions of the embedding:
* The abstract Float trait type T is modelled by the rationals.  Exact
  transcendental trait methods (T::log10, T::sqrt, T::sin, T::cos, T::atan,
  the constant T::PI) are modelled as fields of a FloatOps record that is
  passed to the embedded functions, mirroring the trait-polymorphic Rust code.
* IEEE NaN is modelled by the value none of Option, so a feature value is an
  element of Option Rat with some q a finite value and none the NaN constant.
* A Rust panic (a failed assert, an unwrap of an empty maximum, ...) is
  modelled by the value none of the outer Option of an evaluation result;
  fallible code that returns Result is modelled with Except.
-/

namespace LightCurve

/-- Trait methods and constants of the abstract Float type of the sources,
passed as explicit parameters to the embedded generic functions. -/
structure FloatOps where
  pi : ℚ
  sqrt : ℚ → ℚ
  log10 : ℚ → ℚ
  sin : ℚ → ℚ
  cos : ℚ → ℚ
  atan : ℚ → ℚ

/-- Concrete instantiation of the trait methods used to run the embedded
code on concrete inputs (every method the identity, pi the f64 value of π). -/
def idOps : FloatOps :=
  { pi := 884279719003555 / 281474976710656
    sqrt := id, log10 := id, sin := id, cos := id, atan := id }

/-! ## light-curve-dmdt: Grid, CellIndex, Array2 -/

/-- Result of classifying a coordinate against a Grid
(enum CellIndex of light-curve-dmdt). -/
inductive CellIndex where
  | lowerMin : CellIndex
  | greaterMax : CellIndex
  | value : ℕ → CellIndex
  deriving DecidableEq

/-- Evenly spaced partition of a half-open interval
(struct Grid of light-curve-dmdt; the source field named end is called stop
here because end is a Lean keyword). -/
structure Grid where
  start : ℚ
  stop : ℚ
  n : ℕ

/-- Width of one cell: (end - start) / n. -/
def Grid.cell_size (g : Grid) : ℚ := (g.stop - g.start) / (g.n : ℚ)

/-- Cell borders, Array1::linspace(start, end, n + 1): the k-th border is
start + k * (end - start) / n. -/
def Grid.borders (g : Grid) : List ℚ :=
  (List.range (g.n + 1)).map fun k : ℕ => g.start + (k : ℚ) * g.cell_size

/-- Grid::idx of light-curve-dmdt: classify x as below the grid, above the
grid, or inside cell floor((x - start) / cell_size).  The float-to-usize
conversion of the source truncates a non-negative value, which is the floor. -/
def Grid.idx (g : Grid) (x : ℚ) : CellIndex :=
  if x < g.start then .lowerMin
  else if g.stop ≤ x then .greaterMax
  else .value (⌊(x - g.start) / g.cell_size⌋).toNat

/-- Two-dimensional array (ndarray Array2), function representation with
explicit dimensions; get r c is the element at row r, column c. -/
structure Array2 (α : Type) where
  nrows : ℕ
  ncols : ℕ
  get : ℕ → ℕ → α

/-- Array2::zeros((nrows, ncols)). -/
def zerosA (α : Type) [Zero α] (nrows ncols : ℕ) : Array2 α :=
  { nrows := nrows, ncols := ncols, get := fun _ _ => 0 }

/-- Row-major element list of an Array2, as produced by
as_slice_memory_order on a standard-layout ndarray array. -/
def Array2.rowMajor (a : Array2 α) : List α :=
  (List.range a.nrows).flatMap fun r => (List.range a.ncols).map (a.get r)

/-- Materialised transpose of an Array2: the source builds
b = zeros((a.ncols, a.nrows)) and assigns a.t() into it. -/
def Array2.transpose (a : Array2 α) : Array2 α :=
  { nrows := a.ncols, ncols := a.nrows, get := fun r c => a.get c r }

/-- Sum of all in-bounds cells of an Array2 over a commutative monoid. -/
def Array2.totalCells (a : Array2 ℕ) : ℕ :=
  ∑ r ∈ Finset.range a.nrows, ∑ c ∈ Finset.range a.ncols, a.get r c

/-! ## to_png -/

/-- Byte-stream contract of the PNG sink: the header fields and the raw
grayscale pixel data handed to the encoder.  The PNG writer itself is an
opaque sink, only these values are specified. -/
structure PngImage (α : Type) where
  width : ℕ
  height : ℕ
  data : List α

/-- to_png of light-curve-dmdt: materialise the transpose of the input, then
emit a grayscale 8-bit PNG with width = transposed.ncols(),
height = transposed.nrows() and the row-major data of the transpose. -/
def to_png (a : Array2 ℕ) : PngImage ℕ :=
  let transposed := a.transpose
  { width := transposed.ncols, height := transposed.nrows
    data := transposed.rowMajor }

/-! ## normalise -/

/-- Truncating conversion to u8 (ApproxInto with the default scheme truncates
the fractional part; the input is clamped to [0, 255] first, so it is
non-negative and in range). -/
def toU8 (x : ℚ) : ℕ := (⌊x⌋).toNat

/-- Normalisable::clamp of the source. -/
def clampQ (x lo hi : ℚ) : ℚ := if x < lo then lo else if x ≤ hi then x else hi

/-- normalise of light-curve-dmdt: take the maximum of the array, return the
zero image of the same shape when it is zero, otherwise scale by 255 / max,
clamp to [0, 255] and convert to u8.  The unwrap of the maximum of an empty
array panics, modelled by none. -/
def normalise (a : Array2 ℚ) : Option (Array2 ℕ) :=
  match (a.rowMajor).max? with
  | none => none
  | some mx =>
    if mx = 0 then some (zerosA ℕ a.nrows a.ncols)
    else some
      { nrows := a.nrows, ncols := a.ncols
        get := fun r c => toU8 (clampQ (a.get r c * 255 / mx) 0 255) }

/-- Elementwise scaling of an Array2 by a rational. -/
def Array2.smul (k : ℚ) (a : Array2 ℚ) : Array2 ℚ :=
  { nrows := a.nrows, ncols := a.ncols, get := fun r c => k * a.get r c }

/-! ## DmDt pair loops

convert_lc_to_points and convert_lc_to_gausses share the same control
structure: an outer loop over observations, an inner loop over the later
observations that classifies log10(t2 - t1) against the lgdt grid and either
skips the pair (continue, below the grid), aborts the inner loop (break,
above the grid) or performs a per-pair action on the accumulator.  The two
loops are embedded once, generic in the element type and in the accumulator
type, and instantiated by each conversion. -/

/-- Inner loop body over the observations after the current one; x1 is the
time of the current outer observation, projT extracts the time from an
element.  Matches continue / break / update of the source loop. -/
def innerPairLoop {γ σ : Type} (g : Grid) (lg : ℚ → ℚ) (projT : γ → ℚ)
    (act : σ → ℕ → γ → σ) (x1 : ℚ) : List γ → σ → σ
  | [], s => s
  | e :: rest, s =>
    match g.idx (lg (projT e - x1)) with
    | .lowerMin => innerPairLoop g lg projT act x1 rest s
    | .greaterMax => s
    | .value r => innerPairLoop g lg projT act x1 rest (act s r e)

/-- Outer loop over all observations; for each element the inner loop runs
over the remaining tail. -/
def outerPairLoop {γ σ : Type} (g : Grid) (lg : ℚ → ℚ) (projT : γ → ℚ)
    (act : σ → ℕ → γ → γ → σ) : List γ → σ → σ
  | [], s => s
  | e :: rest, s =>
    outerPairLoop g lg projT act rest
      (innerPairLoop g lg projT (fun s' r e2 => act s' r e e2) (projT e) rest s)

/-- All ordered pairs (l i, l j) with i < j, in loop order. -/
def pairsList {γ : Type} : List γ → List (γ × γ)
  | [] => []
  | e :: rest => (rest.map fun e2 => (e, e2)) ++ pairsList rest

/-- Pairs of the pair loop that reach the per-pair action, together with the
lgdt row each pair falls into. -/
def cellPairs {γ : Type} (g : Grid) (lg : ℚ → ℚ) (projT : γ → ℚ)
    (l : List γ) : List (ℕ × γ × γ) :=
  (pairsList l).filterMap fun p =>
    match g.idx (lg (projT p.2 - projT p.1)) with
    | .value r => some (r, p.1, p.2)
    | _ => none

/-- Increment one cell of a histogram: a[(r, c)] += 1. -/
def Array2.incr (a : Array2 ℕ) (r c : ℕ) : Array2 ℕ :=
  { a with get := fun r' c' => a.get r' c' + if r' = r ∧ c' = c then 1 else 0 }

/-- The dm-dt map configuration: a pair of grids
(struct DmDt of light-curve-dmdt). -/
structure DmDt where
  lgdt_grid : Grid
  dm_grid : Grid

/-- shape() of DmDt: (n_lgdt, n_dm). -/
def DmDt.shape (d : DmDt) : ℕ × ℕ := (d.lgdt_grid.n, d.dm_grid.n)

/-- convert_lc_to_points of light-curve-dmdt: the hard two-dimensional
histogram over (log10 dt, dm) of all ordered pairs.  lg is the log10 trait
method of the Float type. -/
def DmDt.convert_lc_to_points (d : DmDt) (lg : ℚ → ℚ) (t m : List ℚ) :
    Array2 ℕ :=
  outerPairLoop d.lgdt_grid lg Prod.fst
    (fun a r e1 e2 =>
      match d.dm_grid.idx (e2.2 - e1.2) with
      | .value c => a.incr r c
      | _ => a)
    (t.zip m) (zerosA ℕ d.lgdt_grid.n d.dm_grid.n)

/-- Positions (idx_lgdt, idx_dm) of the histogram updates performed by
convert_lc_to_points, in execution order: the same loop, recording the index
of each a[(idx_lgdt, idx_dm)] += 1 instead of performing it. -/
def DmDt.pointsUpdates (d : DmDt) (lg : ℚ → ℚ) (t m : List ℚ) :
    List (ℕ × ℕ) :=
  outerPairLoop d.lgdt_grid lg Prod.fst
    (fun l r e1 e2 =>
      match d.dm_grid.idx (e2.2 - e1.2) with
      | .value c => l ++ [(r, c)]
      | _ => l)
    (t.zip m) []

/-- Per-pair row contribution of the Gaussian variant: map the dm borders
through the normal CDF with mean dm and variance dm_w, form consecutive
pairs (tuple_windows), keep them while the left CDF value is not one, and
take the differences. -/
def rowValues (g : Grid) (ncdf : ℚ → ℚ → ℚ → ℚ) (dm dm_w : ℚ) : List ℚ :=
  let cdfs := g.borders.map fun b => ncdf b dm dm_w
  ((cdfs.zip cdfs.tail).takeWhile fun p => p.1 ≠ 1).map fun p => p.2 - p.1

/-- Add a list of values elementwise to row r of an array: the zip of the
mutable row with the value list updates cell c by += vals[c] exactly for
c < min(ncols, vals.length); reading missing values as 0 is the same update. -/
def Array2.addRow (a : Array2 ℚ) (r : ℕ) (vals : List ℚ) : Array2 ℚ :=
  { a with
    get := fun r' c' =>
      a.get r' c' + if r' = r ∧ c' < a.ncols then vals.getD c' 0 else 0 }

/-- convert_lc_to_gausses of light-curve-dmdt: the Gaussian-spread variant;
ncdf b mu var is erf.normal_cdf(b, mu, var) of the ErrorFunction trait. -/
def DmDt.convert_lc_to_gausses (d : DmDt) (lg : ℚ → ℚ)
    (ncdf : ℚ → ℚ → ℚ → ℚ) (t m w : List ℚ) : Array2 ℚ :=
  outerPairLoop d.lgdt_grid lg Prod.fst
    (fun a r e1 e2 =>
      a.addRow r (rowValues d.dm_grid ncdf (e2.2.1 - e1.2.1) (e1.2.2 + e2.2.2)))
    (t.zip (m.zip w)) (zerosA ℚ d.lgdt_grid.n d.dm_grid.n)

/-! ## light-curve-feature: time series and cached statistics -/

/-- Triple of samples of a light curve (TimeSeries of light-curve-feature):
time, magnitude, optional squared observational errors. -/
structure TimeSeries where
  t : List ℚ
  m : List ℚ
  w : Option (List ℚ)

/-- Number of observations; the TimeSeries constructor of the source asserts
that all samples share this length. -/
def TimeSeries.lenu (ts : TimeSeries) : ℕ := ts.m.length

/-- Number of observations as a float. -/
def TimeSeries.lenf (ts : TimeSeries) : ℚ := (ts.m.length : ℚ)

/-- Mean of a sample: sum / N (DataSample::get_mean). -/
def sampleMean (m : List ℚ) : ℚ := m.sum / (m.length : ℚ)

/-- Sample variance with divisor N - 1, the square of the standard deviation
formula stated in the doc comments of features.rs. -/
def sampleVariance (m : List ℚ) : ℚ :=
  (m.map fun x => (x - sampleMean m) ^ 2).sum / ((m.length : ℚ) - 1)

/-- DataSample::get_std: the square root of the sample variance, through the
sqrt trait method. -/
def get_std (ops : FloatOps) (m : List ℚ) : ℚ := ops.sqrt (sampleVariance m)

/-- Weighted mean with inverse-variance weights, the formula of the
WeightedMean doc comment of features.rs; w holds the squared errors. -/
def weightedMeanOf (m w : List ℚ) : ℚ :=
  ((m.zip w).map fun p => p.1 / p.2).sum / (w.map fun x => 1 / x).sum

/-- Reduced chi-square against the weighted mean, the formula of the
ReducedChi2 doc comment of features.rs. -/
def reducedChi2Of (m w : List ℚ) : ℚ :=
  ((m.zip w).map fun p => (p.1 - weightedMeanOf m w) ^ 2 / p.2).sum /
    ((m.length : ℚ) - 1)

/-- TimeSeries::get_m_weighted_mean: present only when weights are. -/
def TimeSeries.get_m_weighted_mean (ts : TimeSeries) : Option ℚ :=
  ts.w.map fun w => weightedMeanOf ts.m w

/-- TimeSeries::get_m_reduced_chi2: present only when weights are. -/
def TimeSeries.get_m_reduced_chi2 (ts : TimeSeries) : Option ℚ :=
  ts.w.map fun w => reducedChi2Of ts.m w

/-- Evaluation errors surfaced by evaluators.  ShortTimeSeries and its two
fields appear in check_ts_length of evaluator.rs; the remaining closed set
of variants is listed in the spec. -/
inductive EvaluatorError where
  | shortTimeSeries (actual : ℕ) (minimum : ℕ)
  | flatTimeSeries
  deriving DecidableEq

/-- Value of a single feature component: some q is a finite float, none is
the NaN constant of the Float trait. -/
abbrev FVal := Option ℚ

/-- Result of running an evaluator: the outer none is a panic (failed
assert or unwrap), the Except layer is the Result of the evaluator trait. -/
abbrev EvalRes := Option (Except EvaluatorError (List FVal))

/-! ## Periodogram internals (periodogram.rs of light-curve-feature) -/

/-- Number of frequencies of the derived grid: the closed form of
collecting min_freq * i for i = 1, 2, ... while the value is below
max_freq + min_freq.  It agrees with that stream exactly when min_freq is
positive (the stream is then strictly increasing). -/
def numFreq (min_freq max_freq : ℚ) : ℕ :=
  (⌈(max_freq + min_freq) / min_freq⌉ - 1).toNat

/-- PeriodogramFreq::get of periodogram.rs for the Factors variant: the
observation time is max(t) - min(t), the minimum frequency is
pi / (resolution * observation_time), the maximum frequency is
nyquist * pi * N / observation_time, and the grid collects the multiples of
the minimum frequency below max_freq + min_freq, skipping zero.  The unwrap
of the extrema of an empty sample panics, modelled by none. -/
def periodogram_freq_grid (pi resolution nyquist : ℚ) (t : List ℚ) :
    Option (List ℚ) :=
  match t.max?, t.min? with
  | some tmax, some tmin =>
    let observation_time := tmax - tmin
    let min_freq := pi / (resolution * observation_time)
    let max_freq := nyquist * pi * (t.length : ℚ) / observation_time
    some ((List.range (numFreq min_freq max_freq)).map
      fun i : ℕ => min_freq * ((i : ℚ) + 1))
  | _, _ => none

/-- Periodogram::tau of periodogram.rs. -/
def tau (ops : FloatOps) (t : List ℚ) (omega : ℚ) : ℚ :=
  let two_omega := 2 * omega
  let sum_sin := (t.map fun x => ops.sin (two_omega * x)).sum
  let sum_cos := (t.map fun x => ops.cos (two_omega * x)).sum
  (1 / 2) / omega * ops.atan (sum_sin / sum_cos)

/-- Periodogram::p_n of periodogram.rs: the Lomb-Scargle power at a single
frequency. -/
def p_n (ops : FloatOps) (t m : List ℚ) (omega : ℚ) : ℚ :=
  let tauv := tau ops t omega
  let m_mean := sampleMean m
  let l := t.zip m
  let sum_m_sin := (l.map fun p => (p.2 - m_mean) * ops.sin (omega * (p.1 - tauv))).sum
  let sum_m_cos := (l.map fun p => (p.2 - m_mean) * ops.cos (omega * (p.1 - tauv))).sum
  let sum_sin2 := (l.map fun p => ops.sin (omega * (p.1 - tauv)) ^ 2).sum
  let sum_cos2 := (l.map fun p => ops.cos (omega * (p.1 - tauv)) ^ 2).sum
  if (sum_m_sin = 0 ∧ sum_sin2 = 0) ∨ (sum_m_cos = 0 ∧ sum_cos2 = 0) ∨
      get_std ops m = 0 then 0
  else (1 / 2) * (sum_m_sin ^ 2 / sum_sin2 + sum_m_cos ^ 2 / sum_cos2) /
    get_std ops m ^ 2

/-- Frequency grid and powers of the periodogram of a light curve, the
direct estimator of periodogram.rs over the derived grid. -/
def periodogram_freq_power (ops : FloatOps) (resolution nyquist : ℚ)
    (t m : List ℚ) : Option (List ℚ × List ℚ) :=
  (periodogram_freq_grid ops.pi resolution nyquist t).map
    fun freq => (freq, freq.map (p_n ops t m))

/-- Modelled from the spec: peak_indices_reverse_sorted of the missing
statistics module.  Local maxima are interior points larger than both
neighbours, sorted by decreasing power. -/
def peak_indices_reverse_sorted (power : List ℚ) : List ℕ :=
  ((List.range power.length).filter fun i =>
    0 < i ∧ i + 1 < power.length ∧ power.getD (i - 1) 0 < power.getD i 0 ∧
      power.getD (i + 1) 0 < power.getD i 0).mergeSort
    fun i j => power.getD j 0 ≤ power.getD i 0

/-! ## Bins internals -/

/-- Group a list into maximal runs of consecutive elements sharing a key
(itertools group_by). -/
def groupByKey {α : Type} (key : α → ℤ) : List α → List (List α)
  | [] => []
  | x :: xs =>
    match groupByKey key xs with
    | [] => [[x]]
    | [] :: gs => [x] :: gs
    | (y :: g) :: gs =>
      if key x = key y then (x :: y :: g) :: gs else [x] :: (y :: g) :: gs

/-- Bin key of an observation time: floor((t - offset) / window). -/
def binKey (window offset tv : ℚ) : ℤ := ⌊(tv - offset) / window⌋

/-- Bins::bin of features.rs: group consecutive observations by bin key;
per group emit the bin centre (key + 1/2) * window, the inverse-variance
weighted magnitude and the bin squared error n / sum of inverse variances. -/
def binsBin (window offset : ℚ) (t m err2 : List ℚ) :
    List ℚ × List ℚ × List ℚ :=
  let rows := (groupByKey (fun e => binKey window offset e.1)
      (t.zip (m.zip err2))).map fun g =>
    let x : ℚ := (binKey window offset (g.headD (0, 0, 0)).1 : ℚ)
    let bin_t := (x + 1 / 2) * window
    let acc := g.foldl
      (fun acc e => (acc.1 + 1, acc.2.1 + e.2.1 * (1 / e.2.2), acc.2.2 + 1 / e.2.2))
      ((0 : ℚ), (0 : ℚ), (0 : ℚ))
    let norm := 1 / acc.2.2
    (bin_t, acc.2.1 * norm, acc.1 * norm)
  (rows.map (·.1), rows.map (·.2.1), rows.map (·.2.2))

/-! ## Feature evaluators (features.rs) -/

/-- The feature evaluators embedded in this development.  Bins and
Periodogram hold the child features of their nested extractor; the
Periodogram resolution and max_freq_factor keep their default values 10 and
1 of Periodogram::new. -/
inductive Feature where
  | amplitude
  | beyondNStd (nstd : ℚ)
  | cusum
  | eta
  | etaE
  | kurtosis
  | mean
  | skew
  | standardDeviation
  | stetsonK
  | weightedMean
  | reducedChi2
  | bins (window offset : ℚ) (subs : List Feature)
  | periodogram (peaks : ℕ) (subs : List Feature)

mutual

/-- size_hint of each evaluator; for the nested evaluators it is the size
of the child extractor (plus 2 per requested peak for Periodogram). -/
def Feature.size_hint : Feature → ℕ
  | .bins _ _ subs => sizeHintList subs
  | .periodogram peaks subs => 2 * peaks + sizeHintList subs
  | _ => 1

/-- FeatureExtractor::size_hint: the sum over the component evaluators. -/
def sizeHintList : List Feature → ℕ
  | [] => 0
  | f :: rest => f.size_hint + sizeHintList rest

end

/-- Names of the two per-peak outputs of Periodogram. -/
def peakNames (peaks : ℕ) : List String :=
  (List.range peaks).flatMap fun i =>
    ["period_" ++ toString i, "period_s_to_n_" ++ toString i]

mutual

/-- get_names of each evaluator; numeric parameter formatting inside the
name strings is abstracted, the lists have the length of the source ones. -/
def Feature.get_names : Feature → List String
  | .amplitude => ["amplitude"]
  | .beyondNStd _ => ["beyond_n_std"]
  | .cusum => ["cusum"]
  | .eta => ["eta"]
  | .etaE => ["eta_e"]
  | .kurtosis => ["kurtosis"]
  | .mean => ["mean"]
  | .skew => ["skew"]
  | .standardDeviation => ["standard_deviation"]
  | .stetsonK => ["stetson_K"]
  | .weightedMean => ["weighted_mean"]
  | .reducedChi2 => ["chi2"]
  | .bins _ _ subs => (namesList subs).map fun s => "bins_window_offset_" ++ s
  | .periodogram peaks subs =>
    peakNames peaks ++ (namesList subs).map fun s => "periodogram_" ++ s

/-- FeatureExtractor names: concatenation in declared order. -/
def namesList : List Feature → List String
  | [] => []
  | f :: rest => f.get_names ++ namesList rest

end

/-- min_ts_length of each evaluator, the minimum number of observations
stated in the doc comment of each feature in features.rs. -/
def Feature.min_ts_length : Feature → ℕ
  | .amplitude => 1
  | .beyondNStd _ => 2
  | .cusum => 2
  | .eta => 2
  | .etaE => 2
  | .kurtosis => 4
  | .mean => 1
  | .skew => 3
  | .standardDeviation => 2
  | .stetsonK => 2
  | .weightedMean => 1
  | .reducedChi2 => 2
  | .bins _ _ _ => 1
  | .periodogram _ _ => 2

/-- check_ts_length of evaluator.rs: compares the series length against
size_hint() of the evaluator and reports size_hint() as the minimum of the
ShortTimeSeries error. -/
def check_ts_length (f : Feature) (ts : TimeSeries) : Except EvaluatorError ℕ :=
  let length := ts.lenu
  if length < f.size_hint then
    .error (.shortTimeSeries length f.size_hint)
  else .ok length

/-- Amplitude::eval: half the magnitude range; the extrema of an empty
sample panic. -/
def evalAmplitude (ts : TimeSeries) : EvalRes :=
  match ts.m.max?, ts.m.min? with
  | some mx, some mn => some (.ok [some ((1 / 2) * (mx - mn))])
  | _, _ => none

/-- BeyondNStd::eval: fraction of observations farther than
nstd * std from the mean. -/
def evalBeyondNStd (ops : FloatOps) (nstd : ℚ) (ts : TimeSeries) : EvalRes :=
  let m_mean := sampleMean ts.m
  let threshold := get_std ops ts.m * nstd
  some (.ok [some
    (((ts.m.countP fun y => |y - m_mean| > threshold : ℕ) : ℚ) / ts.lenf)])

/-- Cusum::eval: range of the running cumulative sums of m - mean, scaled
by std * N; zero on a flat series; the extrema of the empty cumulative-sum
slice panic. -/
def evalCusum (ops : FloatOps) (ts : TimeSeries) : EvalRes :=
  let m_mean := sampleMean ts.m
  let cumsum := (List.scanl (· + ·) 0 (ts.m.map fun y => y - m_mean)).tail
  if get_std ops ts.m = 0 then some (.ok [some 0])
  else
    match cumsum.max?, cumsum.min? with
    | some mx, some mn =>
      some (.ok [some ((mx - mn) / (get_std ops ts.m * ts.lenf))])
    | _, _ => none

/-- Eta::eval: mean squared consecutive difference over the variance. -/
def evalEta (ops : FloatOps) (ts : TimeSeries) : EvalRes :=
  let value :=
    if get_std ops ts.m = 0 then 0
    else ((ts.m.zip ts.m.tail).map fun p => (p.2 - p.1) ^ 2).sum /
        (ts.lenf - 1) / get_std ops ts.m ^ 2
  some (.ok [some value])

/-- EtaE::eval.  The is_finite filter of the source drops infinite or NaN
squared slopes arising from zero time differences; in the exact embedding
the junk value of division by zero is 0, which contributes 0 to the sum
exactly as a filtered term does. -/
def evalEtaE (ops : FloatOps) (ts : TimeSeries) : EvalRes :=
  let sq_slope_sum :=
    (((ts.t.zip ts.t.tail).zip (ts.m.zip ts.m.tail)).map fun p =>
      ((p.2.2 - p.2.1) / (p.1.2 - p.1.1)) ^ 2).sum
  if get_std ops ts.m = 0 then some (.ok [some 0])
  else
    match ts.t with
    | [] => none
    | t0 :: _ =>
      some (.ok [some ((ts.t.getD (ts.lenu - 1) 0 - t0) ^ 2 * sq_slope_sum /
        get_std ops ts.m ^ 2 / (ts.lenf - 1) ^ 3)])

/-- Kurtosis::eval: asserts at least 4 observations, zero on a flat
series, else the G2 sample kurtosis of the source. -/
def evalKurtosis (ops : FloatOps) (ts : TimeSeries) : EvalRes :=
  if ts.lenu ≤ 3 then none
  else
    let m_mean := sampleMean ts.m
    let n := ts.lenf
    let value :=
      if get_std ops ts.m = 0 then 0
      else (ts.m.map fun x => (x - m_mean) ^ 4).sum / get_std ops ts.m ^ 4 *
          n * (n + 1) / ((n - 1) * (n - 2) * (n - 3)) -
          3 * (n - 1) ^ 2 / ((n - 2) * (n - 3))
    some (.ok [some value])

/-- Mean::eval. -/
def evalMean (ts : TimeSeries) : EvalRes :=
  some (.ok [some (sampleMean ts.m)])

/-- Skew::eval: asserts at least 3 observations, zero on a flat series,
else the G1 sample skewness of the source. -/
def evalSkew (ops : FloatOps) (ts : TimeSeries) : EvalRes :=
  if ts.lenu ≤ 2 then none
  else
    let m_mean := sampleMean ts.m
    let n := ts.lenf
    let value :=
      if get_std ops ts.m = 0 then 0
      else (ts.m.map fun x => (x - m_mean) ^ 3).sum / get_std ops ts.m ^ 3 *
          n / ((n - 1) * (n - 1 - 1))
    some (.ok [some value])

/-- StandardDeviation::eval. -/
def evalStandardDeviation (ops : FloatOps) (ts : TimeSeries) : EvalRes :=
  some (.ok [some (get_std ops ts.m)])

/-- StetsonK::eval: NaN without weights; with weights, zero when the
chi-square (N - 1 times the reduced chi-square) is zero, else the scaled
mean absolute deviation from the weighted mean. -/
def evalStetsonK (ops : FloatOps) (ts : TimeSeries) : EvalRes :=
  match ts.w with
  | some err2 =>
    let mean := weightedMeanOf ts.m err2
    let chi2 := (ts.lenf - 1) * reducedChi2Of ts.m err2
    let value :=
      if chi2 = 0 then 0
      else ((ts.m.zip err2).map fun p => |p.1 - mean| / ops.sqrt p.2).sum /
        ops.sqrt (ts.lenf * chi2)
    some (.ok [some value])
  | none => some (.ok [none])

/-- WeightedMean::eval: the weighted mean or NaN without weights. -/
def evalWeightedMean (ts : TimeSeries) : EvalRes :=
  match ts.w with
  | some err2 => some (.ok [some (weightedMeanOf ts.m err2)])
  | none => some (.ok [none])

/-- ReducedChi2::eval: the reduced chi-square or NaN without weights. -/
def evalReducedChi2 (ts : TimeSeries) : EvalRes :=
  match ts.w with
  | some err2 => some (.ok [some (reducedChi2Of ts.m err2)])
  | none => some (.ok [none])

mutual

/-- eval of the embedded evaluators, following features.rs.  The nested
Bins and Periodogram evaluators feed a derived time series to their child
extractor; errors of a child propagate, recoverable states (missing
weights) become NaN-filled outputs of the declared width. -/
def Feature.eval (ops : FloatOps) : Feature → TimeSeries → EvalRes
  | .amplitude, ts => evalAmplitude ts
  | .beyondNStd nstd, ts => evalBeyondNStd ops nstd ts
  | .cusum, ts => evalCusum ops ts
  | .eta, ts => evalEta ops ts
  | .etaE, ts => evalEtaE ops ts
  | .kurtosis, ts => evalKurtosis ops ts
  | .mean, ts => evalMean ts
  | .skew, ts => evalSkew ops ts
  | .standardDeviation, ts => evalStandardDeviation ops ts
  | .stetsonK, ts => evalStetsonK ops ts
  | .weightedMean, ts => evalWeightedMean ts
  | .reducedChi2, ts => evalReducedChi2 ts
  | .bins window offset subs, ts =>
    if sizeHintList subs = 0 then some (.ok [])
    else
      match ts.w with
      | some err2 =>
        let b := binsBin window offset ts.t ts.m err2
        extractorEval ops subs ⟨b.1, b.2.1, some b.2.2⟩
      | none => some (.ok (List.replicate (sizeHintList subs) none))
  | .periodogram peaks subs, ts =>
    match periodogram_freq_power ops 10 1 ts.t ts.m with
    | none => none
    | some (freq, power) =>
      let peakvals := ((peak_indices_reverse_sorted power).flatMap fun i =>
          [some (2 * ops.pi / freq.getD i 0),
           some ((power.getD i 0 - sampleMean power) / get_std ops power)]) ++
        List.replicate (2 * peaks) (some 0)
      match extractorEval ops subs ⟨freq, power, none⟩ with
      | none => none
      | some (.error e) => some (.error e)
      | some (.ok rest) => some (.ok (peakvals.take (2 * peaks) ++ rest))

/-- Modelled from the spec: eval of the missing FeatureExtractor facade,
concatenating the component outputs in declared order and short-circuiting
on the first failing evaluator. -/
def extractorEval (ops : FloatOps) : List Feature → TimeSeries → EvalRes
  | [], _ => some (.ok [])
  | f :: rest, ts =>
    match f.eval ops ts with
    | none => none
    | some (.error e) => some (.error e)
    | some (.ok v) =>
      match extractorEval ops rest ts with
      | none => none
      | some (.error e) => some (.error e)
      | some (.ok vs) => some (.ok (v ++ vs))

end

/-- eval_or_fill of the FeatureEvaluator trait (evaluator.rs): the value of
eval on success, size_hint() copies of the fill value on an error. -/
def Feature.eval_or_fill (ops : FloatOps) (f : Feature) (ts : TimeSeries)
    (fill : FVal) : Option (List FVal) :=
  match f.eval ops ts with
  | none => none
  | some (.ok v) => some v
  | some (.error _) => some (List.replicate f.size_hint fill)

/-! ## Grid classification lemmas -/

theorem Grid.cell_size_pos (g : Grid) (hs : g.start < g.stop) (hn : 0 < g.n) :
    0 < g.cell_size := by
  unfold Grid.cell_size
  have : (0 : ℚ) < (g.n : ℚ) := by exact_mod_cast hn
  exact div_pos (sub_pos.mpr hs) this

theorem Grid.idx_value_lt (g : Grid) (hs : g.start < g.stop) (hn : 0 < g.n)
    {x : ℚ} {i : ℕ} (h : g.idx x = .value i) : i < g.n := by
  unfold Grid.idx at h
  split_ifs at h with h1 h2
  have hcell := g.cell_size_pos hs hn
  have hxlt : x < g.stop := lt_of_not_le h2
  have hfl : ⌊(x - g.start) / g.cell_size⌋ < (g.n : ℤ) := by
    rw [Int.floor_lt]
    push_cast
    rw [div_lt_iff₀ hcell]
    unfold Grid.cell_size
    have hn' : (0 : ℚ) < (g.n : ℚ) := by exact_mod_cast hn
    rw [mul_div_cancel₀ _ (ne_of_gt hn')]
    linarith
  cases h
  omega

theorem Grid.idx_of_lt (g : Grid) {x : ℚ} (h : x < g.start) :
    g.idx x = .lowerMin := by
  unfold Grid.idx
  rw [if_pos h]

theorem Grid.idx_of_ge (g : Grid) (hs : g.start < g.stop) {x : ℚ}
    (h : g.stop ≤ x) : g.idx x = .greaterMax := by
  unfold Grid.idx
  rw [if_neg (by linarith), if_pos h]

theorem Grid.idx_greaterMax_le (g : Grid) {x : ℚ}
    (h : g.idx x = .greaterMax) : g.stop ≤ x := by
  unfold Grid.idx at h
  split_ifs at h with h1 h2
  · exact h2

theorem Grid.idx_value_of_mem (g : Grid) {x : ℚ} (h1 : g.start ≤ x)
    (h2 : x < g.stop) :
    g.idx x = .value (⌊(x - g.start) / g.cell_size⌋).toNat := by
  unfold Grid.idx
  rw [if_neg (not_lt.mpr h1), if_neg (not_le.mpr h2)]

theorem Grid.isValue_iff (g : Grid) {x : ℚ} :
    (∃ i, g.idx x = .value i) ↔ g.start ≤ x ∧ x < g.stop := by
  constructor
  · rintro ⟨i, h⟩
    unfold Grid.idx at h
    split_ifs at h with h1 h2
    exact ⟨not_lt.mp h1, not_le.mp h2⟩
  · rintro ⟨h1, h2⟩
    exact ⟨_, g.idx_value_of_mem h1 h2⟩

/-! ## The pair loops as folds over the classified pairs -/

theorem innerPairLoop_eq {γ σ : Type} (g : Grid) (lg : ℚ → ℚ) (projT : γ → ℚ)
    (act : σ → ℕ → γ → σ) (x1 : ℚ)
    (hmono : ∀ u v : ℚ, 0 ≤ u → u ≤ v → lg u ≤ lg v)
    (hvalid : g.start < g.stop) (l : List γ)
    (hp : l.Pairwise fun a b => projT a ≤ projT b)
    (hge : ∀ e ∈ l, x1 ≤ projT e) :
    ∀ s, innerPairLoop g lg projT act x1 l s =
      (l.filterMap fun e =>
        match g.idx (lg (projT e - x1)) with
        | .value r => some (r, e)
        | _ => none).foldl (fun s' p => act s' p.1 p.2) s := by
  induction l with
  | nil => intro s; rfl
  | cons e rest ih =>
    intro s
    rcases List.pairwise_cons.mp hp with ⟨hhead, htail⟩
    have hge' : ∀ e' ∈ rest, x1 ≤ projT e' := fun e' he' =>
      hge e' (List.mem_cons_of_mem _ he')
    cases h : g.idx (lg (projT e - x1)) with
    | lowerMin =>
      rw [innerPairLoop, h]
      rw [List.filterMap_cons]
      simp only [h]
      exact ih htail hge' s
    | value r =>
      rw [innerPairLoop, h]
      rw [List.filterMap_cons]
      simp only [h, List.foldl_cons]
      exact ih htail hge' (act s r e)
    | greaterMax =>
      rw [innerPairLoop, h]
      have hnil : (rest.filterMap fun e' =>
          match g.idx (lg (projT e' - x1)) with
          | .value r => some (r, e')
          | _ => none) = [] := by
        rw [List.filterMap_eq_nil_iff]
        intro e' he'
        have h1 : x1 ≤ projT e := hge e (List.mem_cons_self _ _)
        have h2 : projT e ≤ projT e' := hhead e' he'
        have hle : lg (projT e - x1) ≤ lg (projT e' - x1) :=
          hmono _ _ (by linarith) (by linarith)
        have hgm : g.idx (lg (projT e' - x1)) = .greaterMax :=
          g.idx_of_ge hvalid (le_trans (g.idx_greaterMax_le h) hle)
        rw [hgm]
      rw [List.filterMap_cons]
      simp only [h, hnil]
      rfl

theorem outerPairLoop_eq {γ σ : Type} (g : Grid) (lg : ℚ → ℚ) (projT : γ → ℚ)
    (act : σ → ℕ → γ → γ → σ)
    (hmono : ∀ u v : ℚ, 0 ≤ u → u ≤ v → lg u ≤ lg v)
    (hvalid : g.start < g.stop) (l : List γ)
    (hp : l.Pairwise fun a b => projT a ≤ projT b) :
    ∀ s, outerPairLoop g lg projT act l s =
      (cellPairs g lg projT l).foldl (fun s' p => act s' p.1 p.2.1 p.2.2) s := by
  induction l with
  | nil => intro s; rfl
  | cons e rest ih =>
    intro s
    rcases List.pairwise_cons.mp hp with ⟨hhead, htail⟩
    rw [outerPairLoop]
    rw [ih htail]
    unfold cellPairs
    rw [pairsList, List.filterMap_append, List.foldl_append]
    congr 1
    rw [innerPairLoop_eq g lg projT _ _ hmono hvalid rest htail hhead]
    rw [List.filterMap_map]
    have hfm : List.filterMap
        ((fun p : γ × γ =>
          match g.idx (lg (projT p.2 - projT p.1)) with
          | .value r => some (r, p.1, p.2)
          | _ => none) ∘ fun e2 => (e, e2)) rest =
        (rest.filterMap fun e2 =>
          match g.idx (lg (projT e2 - projT e)) with
          | .value r => some (r, e2)
          | _ => none).map fun p => (p.1, e, p.2) := by
      rw [List.map_filterMap]
      apply List.filterMap_congr
      intro e2 _
      cases hix : g.idx (lg (projT e2 - projT e)) <;> simp [hix]
    rw [hfm, List.foldl_map]

theorem innerPairLoop_inv {γ σ : Type} (g : Grid) (lg : ℚ → ℚ) (projT : γ → ℚ)
    (act : σ → ℕ → γ → σ) (x1 : ℚ) (P : σ → Prop)
    (hact : ∀ s r e, P s → g.idx (lg (projT e - x1)) = .value r → P (act s r e)) :
    ∀ (l : List γ) (s : σ), P s → P (innerPairLoop g lg projT act x1 l s) := by
  intro l
  induction l with
  | nil => intro s hs; exact hs
  | cons e rest ih =>
    intro s hs
    cases h : g.idx (lg (projT e - x1)) with
    | lowerMin => rw [innerPairLoop, h]; exact ih s hs
    | greaterMax => rw [innerPairLoop, h]; exact hs
    | value r => rw [innerPairLoop, h]; exact ih _ (hact s r e hs h)

theorem outerPairLoop_inv {γ σ : Type} (g : Grid) (lg : ℚ → ℚ) (projT : γ → ℚ)
    (act : σ → ℕ → γ → γ → σ) (P : σ → Prop)
    (hact : ∀ s r e1 e2, P s →
      g.idx (lg (projT e2 - projT e1)) = .value r → P (act s r e1 e2)) :
    ∀ (l : List γ) (s : σ), P s → P (outerPairLoop g lg projT act l s) := by
  intro l
  induction l with
  | nil => intro s hs; exact hs
  | cons e rest ih =>
    intro s hs
    rw [outerPairLoop]
    exact ih _ (innerPairLoop_inv g lg projT _ _ P
      (fun s' r e2 hs' hidx => hact s' r e e2 hs' hidx) rest s hs)

/-! ## Histogram counting lemmas -/

theorem Array2.incr_nrows (a : Array2 ℕ) (r c : ℕ) :
    (a.incr r c).nrows = a.nrows := rfl

theorem Array2.incr_ncols (a : Array2 ℕ) (r c : ℕ) :
    (a.incr r c).ncols = a.ncols := rfl

theorem Array2.totalCells_incr (a : Array2 ℕ) {r c : ℕ} (hr : r < a.nrows)
    (hc : c < a.ncols) : (a.incr r c).totalCells = a.totalCells + 1 := by
  unfold Array2.totalCells Array2.incr
  simp only
  have hrow : ∀ r', (∑ c' ∈ Finset.range a.ncols,
      (a.get r' c' + if r' = r ∧ c' = c then 1 else 0)) =
      (∑ c' ∈ Finset.range a.ncols, a.get r' c') + if r' = r then 1 else 0 := by
    intro r'
    rw [Finset.sum_add_distrib]
    congr 1
    by_cases hr' : r' = r
    · simp only [hr', true_and]
      rw [Finset.sum_ite_eq' (Finset.range a.ncols) c fun _ => 1]
      rw [if_pos (Finset.mem_range.mpr hc)]
      simp
    · simp [hr']
  rw [Finset.sum_congr rfl fun r' _ => hrow r', Finset.sum_add_distrib]
  congr 1
  rw [Finset.sum_ite_eq' (Finset.range a.nrows) r fun _ => 1]
  rw [if_pos (Finset.mem_range.mpr hr)]

theorem totalCells_zerosA (nr nc : ℕ) : (zerosA ℕ nr nc).totalCells = 0 := by
  simp [Array2.totalCells, zerosA]

theorem length_pairsList {γ : Type} (l : List γ) :
    2 * (pairsList l).length = l.length * (l.length - 1) := by
  induction l with
  | nil => rfl
  | cons e rest ih =>
    rw [pairsList, List.length_append, List.length_map, List.length_cons]
    obtain ⟨n, hn⟩ : ∃ n, rest.length = n := ⟨_, rfl⟩
    rw [hn] at ih ⊢
    cases n with
    | zero => omega
    | succ m =>
      simp only [Nat.add_sub_cancel] at ih ⊢
      zify at ih ⊢
      linear_combination ih

theorem cellPairs_mem {γ : Type} (g : Grid) (lg : ℚ → ℚ) (projT : γ → ℚ)
    {l : List γ} {q : ℕ × γ × γ} (hq : q ∈ cellPairs g lg projT l) :
    g.idx (lg (projT q.2.2 - projT q.2.1)) = .value q.1 ∧
      (q.2.1, q.2.2) ∈ pairsList l := by
  unfold cellPairs at hq
  rcases List.mem_filterMap.mp hq with ⟨p, hp, hfp⟩
  cases hix : g.idx (lg (projT p.2 - projT p.1)) with
  | lowerMin => rw [hix] at hfp; cases hfp
  | greaterMax => rw [hix] at hfp; cases hfp
  | value r =>
    rw [hix] at hfp
    cases hfp
    exact ⟨hix, hp⟩

theorem countP_filterMap {α β : Type} (f : α → Option β) (q : β → Bool)
    (l : List α) :
    (l.filterMap f).countP q = l.countP fun x => ((f x).map q).getD false := by
  induction l with
  | nil => rfl
  | cons x xs ih =>
    rw [List.filterMap_cons, List.countP_cons]
    cases h : f x with
    | none => simp only [h, Option.map_none, Option.getD_none]; simp [ih]
    | some b =>
      simp only [h, Option.map_some, Option.getD_some]
      rw [List.countP_cons, ih]
      simp

/-! ## normalise lemmas -/

theorem normalise_of_max_none (a : Array2 ℚ) (h : a.rowMajor.max? = none) :
    normalise a = none := by
  unfold normalise
  rw [h]

theorem normalise_of_max_some (a : Array2 ℚ) (mx : ℚ)
    (h : a.rowMajor.max? = some mx) :
    normalise a =
      if mx = 0 then some (zerosA ℕ a.nrows a.ncols)
      else some (Array2.mk a.nrows a.ncols
        fun r c => toU8 (clampQ (a.get r c * 255 / mx) 0 255)) := by
  unfold normalise
  rw [h]

theorem foldl_max_map_mul (k : ℚ) (hk : 0 ≤ k) :
    ∀ (l : List ℚ) (a : ℚ),
      (l.map fun x => k * x).foldl max (k * a) = k * l.foldl max a := by
  intro l
  induction l with
  | nil => intro a; rfl
  | cons x xs ih =>
    intro a
    rw [List.map_cons, List.foldl_cons, List.foldl_cons]
    rw [← mul_max_of_nonneg _ _ hk]
    exact ih (max a x)

theorem max?_map_mul_nonneg (k : ℚ) (hk : 0 ≤ k) (l : List ℚ) :
    (l.map fun x => k * x).max? = l.max?.map fun x => k * x := by
  cases l with
  | nil => rfl
  | cons x xs =>
    show some ((xs.map fun x => k * x).foldl max (k * x)) =
      some (k * xs.foldl max x)
    rw [foldl_max_map_mul k hk]

theorem rowMajor_smul (k : ℚ) (a : Array2 ℚ) :
    (a.smul k).rowMajor = a.rowMajor.map fun x => k * x := by
  unfold Array2.rowMajor Array2.smul
  rw [List.map_flatMap]
  simp [List.map_map, Function.comp_def]

/-! ## Claim theorems: dm-dt image pipeline -/

/-- Claim C2 counterexample: on the 1-by-2 matrix (n_lgdt = 1, n_dm = 2)
with entries 0 and 1, to_png declares width 1 and height 2, not width =
n_dm = 2 and height = n_lgdt = 1 as the claim states. -/
theorem claim_C2_counterexample :
    ¬ ((to_png (Array2.mk 1 2 fun _ c => c)).width = 2 ∧
       (to_png (Array2.mk 1 2 fun _ c => c)).height = 1) := by
  rintro ⟨h1, -⟩
  exact absurd h1 (by decide)

/-- Claim C2 (amended): to_png writes an 8-bit grayscale PNG of the
transposed matrix; the header declares width = n_lgdt and height = n_dm
(the column and row counts of the transposed matrix), and the pixel data is
the row-major order of the transposed matrix. -/
theorem claim_C2 (a : Array2 ℕ) :
    (to_png a).width = a.nrows ∧ (to_png a).height = a.ncols ∧
      (to_png a).data = a.transpose.rowMajor :=
  ⟨rfl, rfl, rfl⟩

/-- Claim C8: for a non-empty non-negative matrix, normalise is invariant
under scaling by a positive constant, and a matrix with maximum 0
normalises to the all-zero image of the same shape. -/
theorem claim_C8 (a : Array2 ℚ) (k : ℚ) (hnr : 0 < a.nrows)
    (hnc : 0 < a.ncols)
    (hnonneg : ∀ r c, r < a.nrows → c < a.ncols → 0 ≤ a.get r c) :
    (0 < k → normalise (a.smul k) = normalise a) ∧
      (a.rowMajor.max? = some 0 →
        normalise a = some (zerosA ℕ a.nrows a.ncols)) := by
  constructor
  · intro hk
    cases hmx : a.rowMajor.max? with
    | none =>
      rw [normalise_of_max_none a hmx, normalise_of_max_none]
      rw [rowMajor_smul, max?_map_mul_nonneg k (le_of_lt hk), hmx]
      rfl
    | some mx =>
      have hmx' : (a.smul k).rowMajor.max? = some (k * mx) := by
        rw [rowMajor_smul, max?_map_mul_nonneg k (le_of_lt hk), hmx]
        rfl
      rw [normalise_of_max_some a mx hmx, normalise_of_max_some _ _ hmx']
      by_cases h0 : mx = 0
      · subst h0
        rw [mul_zero]
        rfl
      · rw [if_neg (mul_ne_zero (ne_of_gt hk) h0), if_neg h0]
        congr 1
        show Array2.mk a.nrows a.ncols _ = Array2.mk a.nrows a.ncols _
        simp only [Array2.mk.injEq, true_and]
        funext r c
        show toU8 (clampQ (k * a.get r c * 255 / (k * mx)) 0 255) = _
        rw [mul_assoc, mul_div_mul_left _ _ (ne_of_gt hk)]
  · intro hmx
    rw [normalise_of_max_some a 0 hmx, if_pos rfl]

/-! ## Periodogram frequency grid claims -/

/-- Claim C3 counterexample: with the double-precision value of pi,
resolution 1, Nyquist factor 3/4 and the two observation times 0 and 1, the
derived grid holds the point 2 pi, which exceeds the maximum frequency
omega_max = (3/4) pi N / (t_max - t_min) = (3/2) pi, contradicting the
claim that no grid point exceeds omega_max. -/
theorem claim_C3_counterexample :
    (2 * (884279719003555 / 281474976710656 : ℚ)) ∈
      (periodogram_freq_grid (884279719003555 / 281474976710656 : ℚ) 1 (3 / 4)
        [0, 1]).getD [] ∧
    (3 / 4 : ℚ) * (884279719003555 / 281474976710656) * 2 / (1 - 0) <
      2 * (884279719003555 / 281474976710656 : ℚ) := by
  constructor
  · norm_num [periodogram_freq_grid, numFreq, List.max?, List.min?]
    have hc : ⌈(5 : ℚ) / 2⌉ = 3 := by
      rw [Int.ceil_eq_iff] <;> norm_num
    exact ⟨1, by rw [hc]; decide, by norm_num⟩
  · norm_num

/-- Claim C3 (amended): the derived frequency grid consists exactly of the
frequencies k * omega_min, k = 1, 2, ..., that are below
omega_max + omega_min, with omega_min = pi / (resolution (t_max - t_min))
and omega_max = factor * pi * N / (t_max - t_min) the average-Nyquist
limit; every multiple of omega_min up to omega_max is in the grid and every
grid point is below omega_max + omega_min (so the last point may exceed
omega_max, but by less than omega_min). -/
theorem claim_C3 (pi resolution nyquist : ℚ) (t : List ℚ) (tmax tmin : ℚ)
    (hmax : t.max? = some tmax) (hmin : t.min? = some tmin)
    (hlt : tmin < tmax) (hpi : 0 < pi) (hres : 0 < resolution)
    (hnyq : 0 < nyquist) :
    ∃ grid, periodogram_freq_grid pi resolution nyquist t = some grid ∧
      ∀ ω : ℚ, ω ∈ grid ↔ ∃ k : ℕ, 1 ≤ k ∧
        ω = (k : ℚ) * (pi / (resolution * (tmax - tmin))) ∧
        ω < nyquist * pi * (t.length : ℚ) / (tmax - tmin) +
          pi / (resolution * (tmax - tmin)) := by
  unfold periodogram_freq_grid
  rw [hmax, hmin]
  refine ⟨_, rfl, ?_⟩
  intro ω
  set ωmin : ℚ := pi / (resolution * (tmax - tmin)) with hωmin_def
  set ωmax : ℚ := nyquist * pi * (t.length : ℚ) / (tmax - tmin) with hωmax_def
  have hωmin : 0 < ωmin :=
    div_pos hpi (mul_pos hres (sub_pos.mpr hlt))
  have hiff : ∀ k : ℕ, 1 ≤ k →
      ((k : ℚ) * ωmin < ωmax + ωmin ↔ k ≤ numFreq ωmin ωmax) := by
    intro k hk
    have h1 : (k : ℚ) * ωmin < ωmax + ωmin ↔ (k : ℚ) < (ωmax + ωmin) / ωmin := by
      rw [lt_div_iff₀ hωmin]
    have h2 : ((k : ℚ) < (ωmax + ωmin) / ωmin) ↔
        ((k : ℤ) < ⌈(ωmax + ωmin) / ωmin⌉) := by
      rw [Int.lt_ceil]
      norm_cast
    rw [h1, h2]
    unfold numFreq
    omega
  constructor
  · intro hmem
    rcases List.mem_map.mp hmem with ⟨i, hi, hωeq⟩
    have hiK : i < numFreq ωmin ωmax := List.mem_range.mp hi
    refine ⟨i + 1, le_add_self, ?_, ?_⟩
    · rw [← hωeq]; push_cast; ring
    · have := (hiff (i + 1) (by omega)).mpr (by omega)
      rw [← hωeq]
      push_cast at this ⊢
      linarith
  · rintro ⟨k, hk1, hkeq, hklt⟩
    have hkK : k ≤ numFreq ωmin ωmax :=
      (hiff k hk1).mp (by rw [← hkeq]; exact hklt)
    refine List.mem_map.mpr ⟨k - 1, List.mem_range.mpr (by omega), ?_⟩
    rw [hkeq]
    have : ((k - 1 : ℕ) : ℚ) + 1 = (k : ℚ) := by
      push_cast [Nat.cast_sub hk1]
      ring
    rw [this]
    ring

/-! ## Safety of histogram indexing (C10) -/

/-- Claim C10: for a valid grid, idx classifies every coordinate below the
start as LowerMin, at or above the end as GreaterMax, and everything else
into a cell index smaller than n; consequently every histogram update
position recorded by the points loop is in bounds of the output shape. -/
theorem claim_C10 (g : Grid) (hgs : g.start < g.stop) (hgn : 0 < g.n)
    (d : DmDt) (lg : ℚ → ℚ) (t m : List ℚ)
    (hls : d.lgdt_grid.start < d.lgdt_grid.stop) (hln : 0 < d.lgdt_grid.n)
    (hds : d.dm_grid.start < d.dm_grid.stop) (hdn : 0 < d.dm_grid.n) :
    (∀ x : ℚ,
      (x < g.start → g.idx x = .lowerMin) ∧
      (g.stop ≤ x → g.idx x = .greaterMax) ∧
      (g.start ≤ x → x < g.stop → ∃ i, g.idx x = .value i ∧ i < g.n)) ∧
    ∀ p ∈ d.pointsUpdates lg t m,
      p.1 < d.lgdt_grid.n ∧ p.2 < d.dm_grid.n := by
  constructor
  · intro x
    refine ⟨g.idx_of_lt, g.idx_of_ge hgs, fun h1 h2 => ?_⟩
    exact ⟨_, g.idx_value_of_mem h1 h2,
      g.idx_value_lt hgs hgn (g.idx_value_of_mem h1 h2)⟩
  · unfold DmDt.pointsUpdates
    refine outerPairLoop_inv d.lgdt_grid lg Prod.fst _
      (fun l : List (ℕ × ℕ) =>
        ∀ p ∈ l, p.1 < d.lgdt_grid.n ∧ p.2 < d.dm_grid.n)
      ?_ (t.zip m) [] ?_
    · intro s r e1 e2 hP hidx
      cases hdm : d.dm_grid.idx (e2.2 - e1.2) with
      | lowerMin => simpa [hdm] using hP
      | greaterMax => simpa [hdm] using hP
      | value c =>
        simp only [hdm]
        intro p hp
        rcases List.mem_append.mp hp with hp | hp
        · exact hP p hp
        · rcases List.mem_singleton.mp hp with rfl
          exact ⟨d.lgdt_grid.idx_value_lt hls hln hidx,
            d.dm_grid.idx_value_lt hds hdn hdm⟩
    · intro p hp
      cases hp

/-! ## The points histogram as a pair count (C4) -/

theorem foldl_points_count (d : DmDt)
    (hds : d.dm_grid.start < d.dm_grid.stop) (hdn : 0 < d.dm_grid.n) :
    ∀ (l' : List (ℕ × (ℚ × ℚ) × (ℚ × ℚ))) (a : Array2 ℕ),
      (∀ p ∈ l', p.1 < a.nrows) → a.ncols = d.dm_grid.n →
      (l'.foldl (fun a' p =>
          match d.dm_grid.idx (p.2.2.2 - p.2.1.2) with
          | .value c => a'.incr p.1 c
          | _ => a') a).totalCells =
        a.totalCells + l'.countP fun p =>
          decide (d.dm_grid.start ≤ p.2.2.2 - p.2.1.2 ∧
            p.2.2.2 - p.2.1.2 < d.dm_grid.stop) := by
  intro l'
  induction l' with
  | nil => intro a _ _; simp
  | cons p l' ih =>
    intro a hr hcols
    rw [List.foldl_cons, List.countP_cons]
    cases hdm : d.dm_grid.idx (p.2.2.2 - p.2.1.2) with
    | value c =>
      simp only [hdm]
      have hrange : d.dm_grid.start ≤ p.2.2.2 - p.2.1.2 ∧
          p.2.2.2 - p.2.1.2 < d.dm_grid.stop :=
        d.dm_grid.isValue_iff.mp ⟨c, hdm⟩
      rw [ih (a.incr p.1 c)
        (fun q hq => by
          rw [Array2.incr_nrows]
          exact hr q (List.mem_cons_of_mem _ hq))
        (by rw [Array2.incr_ncols]; exact hcols)]
      rw [a.totalCells_incr (hr p (List.mem_cons_self _ _))
        (by rw [hcols]; exact d.dm_grid.idx_value_lt hds hdn hdm)]
      rw [decide_eq_true hrange]
      simp only [if_pos]
      omega
    | lowerMin =>
      simp only [hdm]
      have hrange : ¬ (d.dm_grid.start ≤ p.2.2.2 - p.2.1.2 ∧
          p.2.2.2 - p.2.1.2 < d.dm_grid.stop) := by
        intro hmem
        rcases d.dm_grid.isValue_iff.mpr hmem with ⟨i, hi⟩
        rw [hdm] at hi
        cases hi
      rw [ih a (fun q hq => hr q (List.mem_cons_of_mem _ hq)) hcols]
      rw [decide_eq_false hrange]
      simp
    | greaterMax =>
      simp only [hdm]
      have hrange : ¬ (d.dm_grid.start ≤ p.2.2.2 - p.2.1.2 ∧
          p.2.2.2 - p.2.1.2 < d.dm_grid.stop) := by
        intro hmem
        rcases d.dm_grid.isValue_iff.mpr hmem with ⟨i, hi⟩
        rw [hdm] at hi
        cases hi
      rw [ih a (fun q hq => hr q (List.mem_cons_of_mem _ hq)) hcols]
      rw [decide_eq_false hrange]
      simp

theorem zip_pairwise_fst {t m : List ℚ} (hlen : t.length = m.length)
    (hsorted : t.Pairwise (· ≤ ·)) :
    (t.zip m).Pairwise fun a b => a.1 ≤ b.1 := by
  have hmap : (t.zip m).map Prod.fst = t :=
    List.map_fst_zip t m (le_of_eq hlen)
  rw [← hmap] at hsorted
  exact List.pairwise_map.mp hsorted

/-- Range condition of the pair p against the two grids, as a Bool. -/
theorem countP_cellPairs_eq (d : DmDt) (lg : ℚ → ℚ) (l : List (ℚ × ℚ)) :
    ((cellPairs d.lgdt_grid lg Prod.fst l).countP fun p =>
        decide (d.dm_grid.start ≤ p.2.2.2 - p.2.1.2 ∧
          p.2.2.2 - p.2.1.2 < d.dm_grid.stop)) =
      (pairsList l).countP fun p =>
        decide ((d.lgdt_grid.start ≤ lg (p.2.1 - p.1.1) ∧
            lg (p.2.1 - p.1.1) < d.lgdt_grid.stop) ∧
          (d.dm_grid.start ≤ p.2.2 - p.1.2 ∧
            p.2.2 - p.1.2 < d.dm_grid.stop)) := by
  unfold cellPairs
  rw [countP_filterMap]
  apply List.countP_congr
  intro p _
  cases hix : d.lgdt_grid.idx (lg (p.2.1 - p.1.1)) with
  | value r =>
    have hl : d.lgdt_grid.start ≤ lg (p.2.1 - p.1.1) ∧
        lg (p.2.1 - p.1.1) < d.lgdt_grid.stop :=
      d.lgdt_grid.isValue_iff.mp ⟨r, hix⟩
    rw [Bool.eq_iff_iff]
    simp [hix]
    tauto
  | lowerMin =>
    have hl : ¬ (d.lgdt_grid.start ≤ lg (p.2.1 - p.1.1) ∧
        lg (p.2.1 - p.1.1) < d.lgdt_grid.stop) := by
      intro hmem
      rcases d.lgdt_grid.isValue_iff.mpr hmem with ⟨i, hi⟩
      rw [hix] at hi
      cases hi
    rw [Bool.eq_iff_iff]
    simp only [hix, Option.map_none', Option.getD_none, decide_eq_true_eq]
    tauto
  | greaterMax =>
    have hl : ¬ (d.lgdt_grid.start ≤ lg (p.2.1 - p.1.1) ∧
        lg (p.2.1 - p.1.1) < d.lgdt_grid.stop) := by
      intro hmem
      rcases d.lgdt_grid.isValue_iff.mpr hmem with ⟨i, hi⟩
      rw [hix] at hi
      cases hi
    rw [Bool.eq_iff_iff]
    simp only [hix, Option.map_none', Option.getD_none, decide_eq_true_eq]
    tauto

/-- Claim C4: for a sorted light curve the total mass of the hard dm-dt
histogram is at most the number N(N-1)/2 of ordered pairs, with equality
exactly when every ordered pair falls inside both grid ranges; in
particular the break on a log10 dt at or above the grid never drops an
in-range pair.  lg is the log10 trait method, monotone on the non-negative
time differences produced by the sorted t. -/
theorem claim_C4 (d : DmDt) (lg : ℚ → ℚ) (t m : List ℚ)
    (hlen : t.length = m.length)
    (hsorted : t.Pairwise (· ≤ ·))
    (hmono : ∀ u v : ℚ, 0 ≤ u → u ≤ v → lg u ≤ lg v)
    (hls : d.lgdt_grid.start < d.lgdt_grid.stop) (hln : 0 < d.lgdt_grid.n)
    (hds : d.dm_grid.start < d.dm_grid.stop) (hdn : 0 < d.dm_grid.n) :
    (d.convert_lc_to_points lg t m).totalCells ≤
      t.length * (t.length - 1) / 2 ∧
    ((d.convert_lc_to_points lg t m).totalCells =
        t.length * (t.length - 1) / 2 ↔
      ∀ p ∈ pairsList (t.zip m),
        (d.lgdt_grid.start ≤ lg (p.2.1 - p.1.1) ∧
          lg (p.2.1 - p.1.1) < d.lgdt_grid.stop) ∧
        (d.dm_grid.start ≤ p.2.2 - p.1.2 ∧
          p.2.2 - p.1.2 < d.dm_grid.stop)) := by
  have hzip : (t.zip m).Pairwise (fun a b => a.1 ≤ b.1) :=
    zip_pairwise_fst hlen hsorted
  have hcount : (d.convert_lc_to_points lg t m).totalCells =
      (pairsList (t.zip m)).countP fun p =>
        decide ((d.lgdt_grid.start ≤ lg (p.2.1 - p.1.1) ∧
            lg (p.2.1 - p.1.1) < d.lgdt_grid.stop) ∧
          (d.dm_grid.start ≤ p.2.2 - p.1.2 ∧
            p.2.2 - p.1.2 < d.dm_grid.stop)) := by
    unfold DmDt.convert_lc_to_points
    rw [outerPairLoop_eq d.lgdt_grid lg Prod.fst _ hmono hls (t.zip m) hzip]
    rw [foldl_points_count d hds hdn _ _
      (fun p hp =>
        d.lgdt_grid.idx_value_lt hls hln
          (cellPairs_mem d.lgdt_grid lg Prod.fst hp).1)
      rfl]
    rw [totalCells_zerosA, countP_cellPairs_eq]
    omega
  have hlenzip : (t.zip m).length = t.length := by
    rw [List.length_zip, hlen, min_self]
  have hplen : (pairsList (t.zip m)).length = t.length * (t.length - 1) / 2 := by
    have := length_pairsList (t.zip m)
    rw [hlenzip] at this
    omega
  constructor
  · rw [hcount, ← hplen]
    exact List.countP_le_length _
  · rw [hcount, ← hplen]
    rw [List.countP_eq_length]
    constructor
    · intro h p hp
      have := h p hp
      simpa using this
    · intro h p hp
      simpa using h p hp

/-! ## The Gaussian dm-dt row contributions (C7) -/

theorem getD_map_takeWhile {α : Type} (p : α → Bool) (f : α → ℚ) (dflt : α) :
    ∀ (l : List α) (c : ℕ),
      ((l.takeWhile p).map f).getD c 0 =
        if (∀ k ≤ c, (l[k]?.all p) = true) ∧ c < l.length
        then f (l.getD c dflt) else 0 := by
  intro l
  induction l with
  | nil =>
    intro c
    rw [if_neg]
    · rfl
    · rintro ⟨-, hc⟩
      simp at hc
  | cons x xs ih =>
    intro c
    cases hpx : p x with
    | false =>
      rw [List.takeWhile_cons_of_neg (by simp [hpx])]
      rw [if_neg]
      · rfl
      · rintro ⟨hall, -⟩
        have h0 := hall 0 (Nat.zero_le c)
        simp [hpx] at h0
    | true =>
      rw [List.takeWhile_cons_of_pos hpx]
      cases c with
      | zero =>
        rw [if_pos]
        · rfl
        · exact ⟨fun k hk => by interval_cases k; simp [hpx], by simp⟩
      | succ c =>
        rw [List.map_cons, List.getD_cons_succ, ih c]
        have hcond : ((∀ k ≤ c, (xs[k]?.all p) = true) ∧ c < xs.length) ↔
            ((∀ k ≤ c + 1, ((x :: xs)[k]?.all p) = true) ∧
              c + 1 < (x :: xs).length) := by
          constructor
          · rintro ⟨hall, hlt⟩
            refine ⟨fun k hk => ?_, by simpa using hlt⟩
            cases k with
            | zero => simp [hpx]
            | succ j => simpa using hall j (by omega)
          · rintro ⟨hall, hlt⟩
            refine ⟨fun k hk => ?_, by simpa using hlt⟩
            simpa using hall (k + 1) (by omega)
        rw [if_congr hcond rfl rfl, List.getD_cons_succ]

theorem rowValues_getD (g : Grid) (ncdf : ℚ → ℚ → ℚ → ℚ) (dm dmw : ℚ)
    (c : ℕ) :
    (rowValues g ncdf dm dmw).getD c 0 =
      if (∀ k ≤ c, ncdf (g.borders.getD k 0) dm dmw ≠ 1) ∧ c < g.n
      then ncdf (g.borders.getD (c + 1) 0) dm dmw -
        ncdf (g.borders.getD c 0) dm dmw
      else 0 := by
  have hblen : g.borders.length = g.n + 1 := by
    simp [Grid.borders]
  unfold rowValues
  set cdfs := g.borders.map fun b => ncdf b dm dmw with hcdfs
  have hclen : cdfs.length = g.n + 1 := by simp [hcdfs, hblen]
  have hwlen : (cdfs.zip cdfs.tail).length = g.n := by
    simp [List.length_zip, hclen]
  have hcd : ∀ k, k < g.n + 1 →
      cdfs.getD k 0 = ncdf (g.borders.getD k 0) dm dmw := by
    intro k hk
    rw [List.getD_eq_getElem _ _ (by omega : k < cdfs.length)]
    rw [List.getD_eq_getElem _ _ (by omega : k < g.borders.length)]
    simp [hcdfs]
  have hwsElem : ∀ (k : ℕ) (hk : k < (cdfs.zip cdfs.tail).length),
      (cdfs.zip cdfs.tail)[k] =
        (ncdf (g.borders.getD k 0) dm dmw,
          ncdf (g.borders.getD (k + 1) 0) dm dmw) := by
    intro k hk
    have hkn : k < g.n := by omega
    have hk2 : k < cdfs.length := by omega
    have hk3 : k + 1 < cdfs.length := by omega
    rw [List.getElem_zip, List.getElem_tail]
    rw [List.getD_eq_getElem _ _ (show k < g.borders.length by omega),
      List.getD_eq_getElem _ _ (show k + 1 < g.borders.length by omega)]
    simp [hcdfs]
  rw [getD_map_takeWhile _ _ (0, 0)]
  by_cases hcnd : (∀ k ≤ c, ncdf (g.borders.getD k 0) dm dmw ≠ 1) ∧ c < g.n
  · have hcw : c < (cdfs.zip cdfs.tail).length := by omega
    have hallws : ∀ k ≤ c,
        (((cdfs.zip cdfs.tail)[k]?.all fun p => p.1 ≠ 1) = true) := by
      intro k hk
      have hk' : k < (cdfs.zip cdfs.tail).length := by omega
      rw [List.getElem?_eq_getElem hk', hwsElem k hk']
      simpa using hcnd.1 k hk
    rw [if_pos ⟨hallws, hcw⟩, if_pos hcnd]
    rw [List.getD_eq_getElem _ _ hcw, hwsElem c hcw]
  · have hneg : ¬ ((∀ k ≤ c,
        (((cdfs.zip cdfs.tail)[k]?.all fun p => p.1 ≠ 1) = true)) ∧
        c < (cdfs.zip cdfs.tail).length) := by
      rintro ⟨hall, hlt⟩
      apply hcnd
      refine ⟨fun k hk => ?_, by omega⟩
      have hk' : k < (cdfs.zip cdfs.tail).length := by omega
      have := hall k hk
      rw [List.getElem?_eq_getElem hk', hwsElem k hk'] at this
      simpa using this
    rw [if_neg hneg, if_neg hcnd]

theorem Array2.addRow_ncols (a : Array2 ℚ) (r : ℕ) (vals : List ℚ) :
    (a.addRow r vals).ncols = a.ncols := rfl

theorem Array2.addRow_get (a : Array2 ℚ) (ρ : ℕ) (vals : List ℚ) (r c : ℕ)
    (hc : c < a.ncols) :
    (a.addRow ρ vals).get r c =
      a.get r c + if ρ = r then vals.getD c 0 else 0 := by
  unfold Array2.addRow
  simp only
  by_cases hρ : ρ = r
  · subst hρ
    rw [if_pos ⟨rfl, hc⟩, if_pos rfl]
  · rw [if_neg (by tauto), if_neg hρ]

theorem foldl_addRow_get {γ : Type} (vals : ℕ × γ × γ → List ℚ) :
    ∀ (l' : List (ℕ × γ × γ)) (a : Array2 ℚ) (r c : ℕ), c < a.ncols →
      (l'.foldl (fun a' p => a'.addRow p.1 (vals p)) a).get r c =
        a.get r c + ((l'.filter fun p => p.1 = r).map
          fun p => (vals p).getD c 0).sum := by
  intro l'
  induction l' with
  | nil => intro a r c _; simp
  | cons p l' ih =>
    intro a r c hc
    rw [List.foldl_cons, ih (a.addRow p.1 (vals p)) r c (by rwa [Array2.addRow_ncols])]
    rw [Array2.addRow_get a p.1 (vals p) r c hc]
    by_cases hp : p.1 = r
    · rw [if_pos hp, List.filter_cons_of_pos (by simp [hp]), List.map_cons,
        List.sum_cons]
      ring
    · rw [if_neg hp, List.filter_cons_of_neg (by simp [hp]), add_zero]

/-- Claim C7: in the Gaussian dm-dt variant, under sorted times and a
monotone log10, cell (r, c) of the output is the sum over the admissible
pairs whose log10 dt falls into row r of the contribution
Phi(b_(c+1)) - Phi(b_c) computed with mean dm and variance w_i + w_j,
except that a pair contributes 0 to cell c as soon as some border b_k with
k ≤ c has CDF value exactly 1 (the row summation stops at the first
saturated border). -/
theorem claim_C7 (d : DmDt) (lg : ℚ → ℚ) (ncdf : ℚ → ℚ → ℚ → ℚ)
    (t m w : List ℚ)
    (hlen1 : t.length = m.length) (hlen2 : m.length = w.length)
    (hsorted : t.Pairwise (· ≤ ·))
    (hmono : ∀ u v : ℚ, 0 ≤ u → u ≤ v → lg u ≤ lg v)
    (hls : d.lgdt_grid.start < d.lgdt_grid.stop)
    (r c : ℕ) (hc : c < d.dm_grid.n) :
    (d.convert_lc_to_gausses lg ncdf t m w).get r c =
      (((cellPairs d.lgdt_grid lg Prod.fst (t.zip (m.zip w))).filter
          fun p => p.1 = r).map fun p =>
        if ∀ k ≤ c, ncdf (d.dm_grid.borders.getD k 0)
            (p.2.2.2.1 - p.2.1.2.1) (p.2.1.2.2 + p.2.2.2.2) ≠ 1
        then ncdf (d.dm_grid.borders.getD (c + 1) 0)
            (p.2.2.2.1 - p.2.1.2.1) (p.2.1.2.2 + p.2.2.2.2) -
          ncdf (d.dm_grid.borders.getD c 0)
            (p.2.2.2.1 - p.2.1.2.1) (p.2.1.2.2 + p.2.2.2.2)
        else 0).sum := by
  have hzip : (t.zip (m.zip w)).Pairwise (fun a b => a.1 ≤ b.1) := by
    have hmap : (t.zip (m.zip w)).map Prod.fst = t :=
      List.map_fst_zip t (m.zip w)
        (by rw [List.length_zip, ← hlen2, min_self]; exact le_of_eq hlen1)
    have := hsorted
    rw [← hmap] at this
    exact List.pairwise_map.mp this
  unfold DmDt.convert_lc_to_gausses
  rw [outerPairLoop_eq d.lgdt_grid lg Prod.fst _ hmono hls _ hzip]
  rw [show (fun (s' : Array2 ℚ) (p : ℕ × (ℚ × ℚ × ℚ) × (ℚ × ℚ × ℚ)) =>
      s'.addRow p.1 (rowValues d.dm_grid ncdf (p.2.2.2.1 - p.2.1.2.1)
        (p.2.1.2.2 + p.2.2.2.2))) =
    fun a' p => a'.addRow p.1 ((fun q : ℕ × (ℚ × ℚ × ℚ) × (ℚ × ℚ × ℚ) =>
      rowValues d.dm_grid ncdf (q.2.2.2.1 - q.2.1.2.1)
        (q.2.1.2.2 + q.2.2.2.2)) p) from rfl]
  rw [foldl_addRow_get _ _ _ r c (by exact hc)]
  rw [show (zerosA ℚ d.lgdt_grid.n d.dm_grid.n).get r c = 0 from rfl, zero_add]
  congr 1
  apply List.map_congr_left
  intro p hp
  rw [rowValues_getD]
  have hcnd : ((∀ k ≤ c, ncdf (d.dm_grid.borders.getD k 0)
      (p.2.2.2.1 - p.2.1.2.1) (p.2.1.2.2 + p.2.2.2.2) ≠ 1) ∧ c < d.dm_grid.n) ↔
      (∀ k ≤ c, ncdf (d.dm_grid.borders.getD k 0)
        (p.2.2.2.1 - p.2.1.2.1) (p.2.1.2.2 + p.2.2.2.2) ≠ 1) :=
    and_iff_left hc
  rw [if_congr hcnd rfl rfl]

/-! ## Feature evaluator claims -/

/-- Claim C1 (failing input): the Kurtosis evaluator documents a minimum of
4 observations, yet on a series of length 2 check_ts_length accepts the
series because it compares the length against size_hint() = 1, and eval
then panics on the length assert instead of returning
ShortTimeSeries (actual 2) (minimum 4). -/
theorem claim_C1 :
    2 < Feature.min_ts_length .kurtosis ∧
    check_ts_length .kurtosis ⟨[0, 1], [0, 1], none⟩ = .ok 2 ∧
    Feature.eval idOps .kurtosis ⟨[0, 1], [0, 1], none⟩ = none := by
  refine ⟨by decide, rfl, rfl⟩

theorem sampleVariance_const (m : List ℚ) (c : ℚ) (hconst : ∀ x ∈ m, x = c) :
    sampleVariance m = 0 := by
  cases m with
  | nil => simp [sampleVariance]
  | cons a l =>
    have hmean : sampleMean (a :: l) = c := by
      unfold sampleMean
      have hsum : (a :: l).sum = ((a :: l).length : ℚ) * c := by
        rw [List.sum_eq_card_nsmul (a :: l) c hconst]
        simp [nsmul_eq_mul]
      rw [hsum]
      have hne : ((a :: l).length : ℚ) ≠ 0 := by
        simp only [List.length_cons]
        push_cast
        exact ne_of_gt (by positivity)
      field_simp
    unfold sampleVariance
    have hzero : ((a :: l).map fun x => (x - sampleMean (a :: l)) ^ 2).sum = 0 := by
      apply List.sum_eq_zero
      intro y hy
      rcases List.mem_map.mp hy with ⟨x, hx, rfl⟩
      rw [hmean, hconst x hx]
      ring
    rw [hzero, zero_div]

theorem get_std_const (ops : FloatOps) (m : List ℚ) (c : ℚ)
    (hsqrt : ops.sqrt 0 = 0) (hconst : ∀ x ∈ m, x = c) :
    get_std ops m = 0 := by
  unfold get_std
  rw [sampleVariance_const m c hconst, hsqrt]

/-- Claim C9: on a constant magnitude series that is long enough for the
evaluator, Cusum, Eta, EtaE, Kurtosis and Skew all return exactly 0.  The
sqrt trait method is only required to map 0 to 0, as IEEE sqrt does. -/
theorem claim_C9 (ops : FloatOps) (ts : TimeSeries) (c : ℚ)
    (hsqrt : ops.sqrt 0 = 0) (hconst : ∀ x ∈ ts.m, x = c) :
    (2 ≤ ts.m.length →
      Feature.eval ops .cusum ts = some (.ok [some 0])) ∧
    (2 ≤ ts.m.length →
      Feature.eval ops .eta ts = some (.ok [some 0])) ∧
    (2 ≤ ts.m.length →
      Feature.eval ops .etaE ts = some (.ok [some 0])) ∧
    (4 ≤ ts.m.length →
      Feature.eval ops .kurtosis ts = some (.ok [some 0])) ∧
    (3 ≤ ts.m.length →
      Feature.eval ops .skew ts = some (.ok [some 0])) := by
  have hstd : get_std ops ts.m = 0 := get_std_const ops ts.m c hsqrt hconst
  refine ⟨fun _ => ?_, fun _ => ?_, fun _ => ?_, fun hlen => ?_, fun hlen => ?_⟩
  · show evalCusum ops ts = _
    unfold evalCusum
    rw [if_pos hstd]
  · show evalEta ops ts = _
    unfold evalEta
    rw [if_pos hstd]
  · show evalEtaE ops ts = _
    unfold evalEtaE
    rw [if_pos hstd]
  · show evalKurtosis ops ts = _
    unfold evalKurtosis
    rw [if_neg (by unfold TimeSeries.lenu; omega)]
    simp [hstd]
  · show evalSkew ops ts = _
    unfold evalSkew
    rw [if_neg (by unfold TimeSeries.lenu; omega)]
    simp [hstd]

/-- Claim C6: StetsonK without weights yields the single NaN value and Bins
without weights yields size_hint() NaN values, neither surfacing an error;
with weights and zero chi-square StetsonK yields exactly 0. -/
theorem claim_C6 (ops : FloatOps) (ts : TimeSeries) :
    (ts.w = none → Feature.eval ops .stetsonK ts = some (.ok [none])) ∧
    (∀ (window offset : ℚ) (subs : List Feature), ts.w = none →
      Feature.eval ops (.bins window offset subs) ts =
        some (.ok (List.replicate
          (Feature.size_hint (.bins window offset subs)) none))) ∧
    (∀ err2, ts.w = some err2 →
      (ts.lenf - 1) * reducedChi2Of ts.m err2 = 0 →
      Feature.eval ops .stetsonK ts = some (.ok [some 0])) := by
  refine ⟨fun h => ?_, fun window offset subs h => ?_, fun err2 h hchi => ?_⟩
  · show evalStetsonK ops ts = _
    unfold evalStetsonK
    rw [h]
  · show Feature.eval ops (.bins window offset subs) ts = _
    rw [Feature.eval]
    by_cases h0 : sizeHintList subs = 0
    · rw [if_pos h0]
      rw [show Feature.size_hint (.bins window offset subs) = sizeHintList subs
        from rfl, h0]
      rfl
    · rw [if_neg h0, h]
      rfl
  · show evalStetsonK ops ts = _
    unfold evalStetsonK
    rw [h]
    simp only [hchi, if_pos]

/-! ## Output length invariant (C5) -/

theorem peakNames_length (peaks : ℕ) : (peakNames peaks).length = 2 * peaks := by
  unfold peakNames
  induction peaks with
  | zero => rfl
  | succ n ih =>
    rw [List.range_succ, List.flatMap_append, List.length_append, ih]
    simp [Nat.mul_succ]

mutual

theorem names_length : ∀ f : Feature, f.get_names.length = f.size_hint
  | .amplitude => rfl
  | .beyondNStd _ => rfl
  | .cusum => rfl
  | .eta => rfl
  | .etaE => rfl
  | .kurtosis => rfl
  | .mean => rfl
  | .skew => rfl
  | .standardDeviation => rfl
  | .stetsonK => rfl
  | .weightedMean => rfl
  | .reducedChi2 => rfl
  | .bins window offset subs => by
    show ((namesList subs).map fun s => "bins_window_offset_" ++ s).length =
      sizeHintList subs
    rw [List.length_map]
    exact namesList_length subs
  | .periodogram peaks subs => by
    show (peakNames peaks ++
        (namesList subs).map fun s => "periodogram_" ++ s).length =
      2 * peaks + sizeHintList subs
    rw [List.length_append, List.length_map, peakNames_length,
      namesList_length subs]

theorem namesList_length : ∀ subs : List Feature,
    (namesList subs).length = sizeHintList subs
  | [] => rfl
  | f :: rest => by
    show (f.get_names ++ namesList rest).length = f.size_hint + sizeHintList rest
    rw [List.length_append, names_length f, namesList_length rest]

end

mutual

theorem eval_length (ops : FloatOps) :
    ∀ (f : Feature) (ts : TimeSeries) (v : List FVal),
      Feature.eval ops f ts = some (.ok v) → v.length = f.size_hint
  | .amplitude, ts, v => by
    show evalAmplitude ts = _ → _
    unfold evalAmplitude
    cases ts.m.max? <;> cases ts.m.min? <;> intro h <;> cases h <;> rfl
  | .beyondNStd nstd, ts, v => by
    intro h
    cases h
    rfl
  | .cusum, ts, v => by
    show evalCusum ops ts = _ → _
    unfold evalCusum
    split
    · intro h; cases h; rfl
    · cases hmx : (List.scanl (· + ·) 0
          (ts.m.map fun y => y - sampleMean ts.m)).tail.max? <;>
        cases hmn : (List.scanl (· + ·) 0
          (ts.m.map fun y => y - sampleMean ts.m)).tail.min? <;>
        simp only [hmx, hmn] <;> intro h <;> cases h <;> rfl
  | .eta, ts, v => by
    intro h
    cases h
    rfl
  | .etaE, ts, v => by
    show evalEtaE ops ts = _ → _
    unfold evalEtaE
    split
    · intro h; cases h; rfl
    · cases ts.t <;> intro h <;> cases h <;> rfl
  | .kurtosis, ts, v => by
    show evalKurtosis ops ts = _ → _
    unfold evalKurtosis
    split
    · intro h; cases h
    · intro h; cases h; rfl
  | .mean, ts, v => by
    intro h
    cases h
    rfl
  | .skew, ts, v => by
    show evalSkew ops ts = _ → _
    unfold evalSkew
    split
    · intro h; cases h
    · intro h; cases h; rfl
  | .standardDeviation, ts, v => by
    intro h
    cases h
    rfl
  | .stetsonK, ts, v => by
    show evalStetsonK ops ts = _ → _
    unfold evalStetsonK
    cases ts.w <;> intro h <;> cases h <;> rfl
  | .weightedMean, ts, v => by
    show evalWeightedMean ts = _ → _
    unfold evalWeightedMean
    cases ts.w <;> intro h <;> cases h <;> rfl
  | .reducedChi2, ts, v => by
    show evalReducedChi2 ts = _ → _
    unfold evalReducedChi2
    cases ts.w <;> intro h <;> cases h <;> rfl
  | .bins window offset subs, ts, v => by
    rw [Feature.eval]
    show _ → v.length = sizeHintList subs
    split
    · rename_i h0
      intro h
      cases h
      rw [h0]
      rfl
    · cases hw : ts.w with
      | some err2 =>
        intro h
        exact extractorEval_length ops subs _ v h
      | none =>
        intro h
        cases h
        rw [List.length_replicate]
  | .periodogram peaks subs, ts, v => by
    intro h
    rw [Feature.eval] at h
    split at h
    · cases h
    · split at h
      · cases h
      · cases h
      · rename_i freq power hfp rest hex
        injection h with h1
        injection h1 with h2
        rw [← h2]
        show (_ ++ rest).length = 2 * peaks + sizeHintList subs
        rw [List.length_append, List.length_take, List.length_append,
          List.length_replicate]
        rw [extractorEval_length ops subs _ rest hex]
        omega

theorem extractorEval_length (ops : FloatOps) :
    ∀ (subs : List Feature) (ts : TimeSeries) (v : List FVal),
      extractorEval ops subs ts = some (.ok v) → v.length = sizeHintList subs
  | [], ts, v => by
    intro h
    cases h
    rfl
  | f :: rest, ts, v => by
    rw [extractorEval]
    cases hf : Feature.eval ops f ts with
    | none => intro h; cases h
    | some r =>
      cases r with
      | error e => intro h; cases h
      | ok v1 =>
        cases hex : extractorEval ops rest ts with
        | none => intro h; cases h
        | some r2 =>
          cases r2 with
          | error e => intro h; cases h
          | ok vs =>
            intro h
            cases h
            show (v1 ++ vs).length = f.size_hint + sizeHintList rest
            rw [List.length_append, eval_length ops f ts v1 hf,
              extractorEval_length ops rest ts vs hex]

end

/-- Claim C5: whenever eval returns (successfully or with an error, i.e.
does not panic), the vector of names, the successful value vector and
size_hint() agree in length, eval_or_fill also returns, its result has
exactly size_hint() elements, and on an error it is size_hint() copies of
the fill value. -/
theorem claim_C5 (ops : FloatOps) (f : Feature) (ts : TimeSeries) (fill : FVal)
    (h : (Feature.eval ops f ts).isSome = true) :
    f.get_names.length = f.size_hint ∧
    (∀ v, Feature.eval ops f ts = some (.ok v) → v.length = f.size_hint) ∧
    (Feature.eval_or_fill ops f ts fill).isSome = true ∧
    (∀ w', Feature.eval_or_fill ops f ts fill = some w' →
      w'.length = f.size_hint) ∧
    (∀ e, Feature.eval ops f ts = some (.error e) →
      Feature.eval_or_fill ops f ts fill =
        some (List.replicate f.size_hint fill)) := by
  refine ⟨names_length f, fun v hv => eval_length ops f ts v hv, ?_, ?_, ?_⟩
  · unfold Feature.eval_or_fill
    cases hr : Feature.eval ops f ts with
    | none => rw [hr] at h; cases h
    | some r => cases r <;> rfl
  · intro w' hw'
    unfold Feature.eval_or_fill at hw'
    cases hr : Feature.eval ops f ts with
    | none => rw [hr] at h; cases h
    | some r =>
      rw [hr] at hw'
      cases r with
      | ok v =>
        cases hw'
        exact eval_length ops f ts w' hr
      | error e =>
        cases hw'
        rw [List.length_replicate]
  · intro e he
    unfold Feature.eval_or_fill
    rw [he]

/-! ## Witnesses: the claim theorems applied at concrete inputs -/

theorem claim_C3_witness : (periodogram_freq_grid 3 1 1 [0, 1]).isSome = true := by
  obtain ⟨grid, hgrid, -⟩ := claim_C3 3 1 1 [0, 1] 1 0
    (by simp [List.max?]) (by simp [List.min?]) (by norm_num) (by norm_num)
    (by norm_num) (by norm_num)
  rw [hgrid]
  rfl

theorem claim_C4_witness :
    ((DmDt.mk (Grid.mk 0 2 2) (Grid.mk (-1) 1 2)).convert_lc_to_points
      id [0, 1] [0, 0]).totalCells = 1 := by
  have h := (claim_C4 (DmDt.mk (Grid.mk 0 2 2) (Grid.mk (-1) 1 2)) id
    [0, 1] [0, 0] rfl
    (by norm_num [List.pairwise_cons])
    (fun u v _ h => h)
    (by norm_num) (by norm_num) (by norm_num) (by norm_num)).2.mpr
    (by
      intro p hp
      simp only [List.zip, List.zipWith, pairsList, List.map, List.mem_append,
        List.mem_singleton, List.not_mem_nil, or_false] at hp
      subst hp
      norm_num)
  simpa using h

theorem claim_C5_witness :
    (Feature.eval_or_fill idOps (.bins 1 0 [.mean])
      ⟨[0, 1], [1, 3], none⟩ (some 7)).isSome = true ∧
    (Feature.bins 1 0 [.mean]).get_names.length =
      (Feature.bins 1 0 [.mean]).size_hint := by
  have h := claim_C5 idOps (.bins 1 0 [.mean]) ⟨[0, 1], [1, 3], none⟩
    (some 7) (by rfl)
  exact ⟨h.2.2.1, h.1⟩

theorem claim_C6_witness :
    Feature.eval idOps .stetsonK ⟨[0, 1], [1, 2], none⟩ =
      some (.ok [none]) ∧
    Feature.eval idOps (.bins 1 0 [.mean]) ⟨[0, 1], [1, 2], none⟩ =
      some (.ok (List.replicate
        (Feature.size_hint (.bins 1 0 [.mean])) none)) ∧
    Feature.eval idOps .stetsonK ⟨[0, 1], [1, 1], some [1, 1]⟩ =
      some (.ok [some 0]) := by
  refine ⟨(claim_C6 idOps ⟨[0, 1], [1, 2], none⟩).1 rfl,
    (claim_C6 idOps ⟨[0, 1], [1, 2], none⟩).2.1 1 0 [.mean] rfl,
    (claim_C6 idOps ⟨[0, 1], [1, 1], some [1, 1]⟩).2.2 [1, 1] rfl ?_⟩
  norm_num [reducedChi2Of, weightedMeanOf, TimeSeries.lenf, List.zip,
    List.zipWith]

theorem claim_C7_witness :
    ((DmDt.mk (Grid.mk 0 2 2) (Grid.mk (-1) 1 2)).convert_lc_to_gausses
      id (fun b _ _ => b) [0, 1] [0, 0] [1, 1]).get 1 0 = 1 := by
  rw [claim_C7 (DmDt.mk (Grid.mk 0 2 2) (Grid.mk (-1) 1 2)) id
    (fun b _ _ => b) [0, 1] [0, 0] [1, 1] rfl rfl
    (by norm_num [List.pairwise_cons])
    (fun u v _ h => h)
    (by norm_num) 1 0 (by norm_num)]
  norm_num [cellPairs, pairsList, List.zip, List.zipWith, Grid.idx,
    Grid.cell_size, Grid.borders, List.range_succ, List.filterMap,
    List.filter]

theorem claim_C8_witness :
    normalise ((Array2.mk 1 1 fun _ _ => (1 : ℚ)).smul 2) =
      normalise (Array2.mk 1 1 fun _ _ => (1 : ℚ)) ∧
    normalise (Array2.mk 1 1 fun _ _ => (0 : ℚ)) =
      some (zerosA ℕ 1 1) := by
  constructor
  · exact (claim_C8 (Array2.mk 1 1 fun _ _ => (1 : ℚ)) 2 (by norm_num)
      (by norm_num) (fun r c _ _ => by norm_num)).1 (by norm_num)
  · exact (claim_C8 (Array2.mk 1 1 fun _ _ => (0 : ℚ)) 1 (by norm_num)
      (by norm_num) (fun r c _ _ => by norm_num)).2
      (by rfl)

theorem claim_C9_witness :
    Feature.eval idOps .cusum ⟨[0, 1, 2, 3], [5, 5, 5, 5], none⟩ =
      some (.ok [some 0]) ∧
    Feature.eval idOps .eta ⟨[0, 1, 2, 3], [5, 5, 5, 5], none⟩ =
      some (.ok [some 0]) ∧
    Feature.eval idOps .etaE ⟨[0, 1, 2, 3], [5, 5, 5, 5], none⟩ =
      some (.ok [some 0]) ∧
    Feature.eval idOps .kurtosis ⟨[0, 1, 2, 3], [5, 5, 5, 5], none⟩ =
      some (.ok [some 0]) ∧
    Feature.eval idOps .skew ⟨[0, 1, 2, 3], [5, 5, 5, 5], none⟩ =
      some (.ok [some 0]) := by
  have h := claim_C9 idOps ⟨[0, 1, 2, 3], [5, 5, 5, 5], none⟩ 5 rfl
    (by intro x hx; simpa using hx)
  exact ⟨h.1 (by decide), h.2.1 (by decide), h.2.2.1 (by decide),
    h.2.2.2.1 (by decide), h.2.2.2.2 (by decide)⟩

theorem claim_C10_witness :
    Grid.idx (Grid.mk 0 2 2) 5 = CellIndex.greaterMax ∧
    Grid.idx (Grid.mk 0 2 2) (-1) = CellIndex.lowerMin := by
  have h := (claim_C10 (Grid.mk 0 2 2) (by norm_num) (by norm_num)
    (DmDt.mk (Grid.mk 0 2 2) (Grid.mk (-1) 1 2)) id [] []
    (by norm_num) (by norm_num) (by norm_num) (by norm_num)).1
  exact ⟨(h 5).2.1 (by norm_num), (h (-1)).1 (by norm_num)⟩

end LightCurve
